import Mathlib

/-!
Verification of `sha256.py`, an implementation of the SHA-256 cryptographic
hash function per FIPS 180-4.

Shallow embedding conventions: Python arbitrary-precision integers are
modelled as `ℕ` wherever the source only ever produces nonnegative values,
and as `ℤ` inside `choose`, where Python's `~x = -(x+1)` is genuinely
negative.  Byte strings are `List ℕ` with entries below 256.  The `primes`
generator is modelled as a step function on its loop state, and
`itertools.islice` as taking a prefix of a sufficiently long run.
-/

set_option maxRecDepth 6000

/-- State of the Python `dict` in `primes`, modelled as an association list:
it maps a "next composite to mark" to the list of prime factors responsible
for it.  Only lookup, assignment and deletion are ever applied to it (the
dict itself is never iterated), so the association-list model below is
observationally exactly a Python dict. -/
abbrev SieveDict := List (ℕ × List ℕ)

/-- Python `d[k]` (and the `k in d` test): the most recent binding of `k`. -/
def dictFind (d : SieveDict) (k : ℕ) : Option (List ℕ) := List.lookup k d

/-- Python `d[k] = v`, as a shadowing cons. -/
def dictInsert (d : SieveDict) (k : ℕ) (v : List ℕ) : SieveDict := (k, v) :: d

/-- Python `del d[k]`: removes every binding of `k`, shadowed ones included. -/
def dictErase (d : SieveDict) (k : ℕ) : SieveDict :=
  d.filter fun e => decide (e.1 ≠ k)

/-- Python `d.setdefault(k, []).append(p)`. -/
def setdefaultAppend (d : SieveDict) (k p : ℕ) : SieveDict :=
  dictInsert d k ((dictFind d k).getD [] ++ [p])

/-- One iteration of the `while True` loop in `primes` at candidate `q = s.2`:
if `q` is not a key of `d` it is prime — yield it and schedule `q * q`;
otherwise move every recorded factor `p` of `q` to `p + q` and delete the
entry at `q`.  Returns the (optional) yielded value and the next state. -/
def sieveStep (s : SieveDict × ℕ) : Option ℕ × (SieveDict × ℕ) :=
  match dictFind s.1 s.2 with
  | none => (some s.2, (dictInsert s.1 (s.2 * s.2) [s.2], s.2 + 1))
  | some l =>
      (none, (dictErase (l.foldl (fun d p => setdefaultAppend d (p + s.2) p) s.1) s.2, s.2 + 1))

/-- Initial state of the generator: empty dictionary, first candidate `q = 2`. -/
def sieveInit : SieveDict × ℕ := ([], 2)

/-- Accumulated outputs and state after `k` iterations of the generator loop. -/
def sieveRun : ℕ → List ℕ × (SieveDict × ℕ) → List ℕ × (SieveDict × ℕ)
  | 0, r => r
  | k + 1, r =>
    match sieveStep r.2 with
    | (o, s2) => sieveRun k (r.1 ++ o.toList, s2)

/-- The values yielded by `primes()` while it considers candidates `2 .. k + 1`. -/
def sieveOutputs (k : ℕ) : List ℕ := (sieveRun k ([], sieveInit)).1

/-- Python `itertools.islice(primes(), n)` for `n ≤ 64`: the first `n` values
yielded by the generator.  310 loop iterations cover the candidates up to 311
(the 64th prime), so they suffice to produce the first 64 yields. -/
def islicePrimes (n : ℕ) : List ℕ := (sieveOutputs 310).take n

/-- Binary search for the integer r-th root: the greatest `k` with `k ^ r ≤ n`,
maintaining `lo ^ r ≤ n < hi ^ r`.  The interval shrinks every step, so fuel
`n + 1` (the initial interval width) always suffices. -/
def irootGo (r n : ℕ) : ℕ → ℕ → ℕ → ℕ
  | 0, lo, _ => lo
  | fuel + 1, lo, hi =>
    if hi ≤ lo + 1 then lo
    else
      let mid := (lo + hi) / 2
      if mid ^ r ≤ n then irootGo r n fuel mid hi else irootGo r n fuel lo mid

/-- Integer r-th root: `iroot r n = ⌊n ^ (1/r)⌋` for `1 ≤ r`. -/
def iroot (r n : ℕ) : ℕ := irootGo r n (n + 1) 0 (n + 1)

/-- Model of `sha_256_constant(p, r) = int(Decimal(p) ** (Decimal(1) / r) % 1 * 2**32)`,
which computes `⌊frac(p^(1/r)) · 2^32⌋` (the docstring's own formula; the
`decimal` module's 28 significant digits exceed by far the 32 fractional bits
kept, and the result is checked bit-exactly against the FIPS tables below).
With exact integer roots, `⌊p^(1/r) · 2^32⌋ = iroot r (p · 2^(32 r))` and
`⌊p^(1/r)⌋ = iroot r p`. -/
def sha_256_constant (p r : ℕ) : ℕ := iroot r (p * 2 ^ (32 * r)) - iroot r p * 2 ^ 32

/-- `rotate_right(x, n) = (x >> n) | (x << 32 - n)` — note: no 32-bit mask,
so for `0 < n` the result can have bits at positions ≥ 32. -/
def rotate_right (x n : ℕ) : ℕ := (x >>> n) ||| (x <<< (32 - n))

/-- `choose(x, y, z) = (x & y) ^ (~x & z)`, over `ℤ` because Python's `~x`
is the negative integer `-(x+1)` (bitwise ops on negative Python ints use
two's complement with infinite sign extension, which is exactly what
`Int.lnot` / `Int.land` / `Int.xor` implement). -/
def choose (x y z : ℤ) : ℤ := Int.xor (Int.land x y) (Int.land (Int.lnot x) z)

/-- `majority(x, y, z) = (x & y) ^ (x & z) ^ (y & z)`. -/
def majority (x y z : ℕ) : ℕ := (x &&& y) ^^^ (x &&& z) ^^^ (y &&& z)

/-- `Σ0(x)` from the source (FIPS 180-4 eq. 4.4); `Σ` is not a valid Lean
identifier character, hence the name `Sigma0`. -/
def Sigma0 (x : ℕ) : ℕ := rotate_right x 2 ^^^ rotate_right x 13 ^^^ rotate_right x 22

/-- `Σ1(x)` from the source (FIPS 180-4 eq. 4.5). -/
def Sigma1 (x : ℕ) : ℕ := rotate_right x 6 ^^^ rotate_right x 11 ^^^ rotate_right x 25

/-- `σ0(x)` from the source (FIPS 180-4 eq. 4.6). -/
def σ0 (x : ℕ) : ℕ := rotate_right x 7 ^^^ rotate_right x 18 ^^^ (x >>> 3)

/-- `σ1(x)` from the source (FIPS 180-4 eq. 4.7). -/
def σ1 (x : ℕ) : ℕ := rotate_right x 17 ^^^ rotate_right x 19 ^^^ (x >>> 10)

/-- Python `v.to_bytes(n, byteorder='big')` (for `v < 256 ^ n`). -/
def toBytesBE (n v : ℕ) : List ℕ := (List.range n).map fun i => v / 256 ^ (n - 1 - i) % 256

/-- Python `int.from_bytes(bs, 'big')`. -/
def fromBytesBE (bs : List ℕ) : ℕ := bs.foldl (fun acc b => acc * 256 + b) 0

/-- The byte string built by the three `m +=` lines of `preprocess_message`:
`0x80`, then `64 - (l + 9) % 64` zero bytes, then the 64-bit big-endian
bit length. -/
def padded_message (m : List ℕ) : List ℕ :=
  m ++ [128] ++ List.replicate (64 - (m.length + 9) % 64) 0 ++ toBytesBE 8 (m.length * 8)

/-- `preprocess_message`: pad, then split into 512-bit blocks of sixteen
big-endian 32-bit words (`m[b*64+w*4 : b*64+w*4+4]` is `(drop _).take 4`). -/
def preprocess_message (m : List ℕ) : List (List ℕ) :=
  let p := padded_message m
  (List.range (p.length / 64)).map fun b =>
    (List.range 16).map fun w => fromBytesBE ((p.drop (b * 64 + w * 4)).take 4)

/-- `IV = [sha_256_constant(p, 2) for p in itertools.islice(primes(), 8)]`. -/
def IV : List ℕ := (islicePrimes 8).map fun p => sha_256_constant p 2

/-- `K = [sha_256_constant(p, 3) for p in itertools.islice(primes(), 64)]`. -/
def K : List ℕ := (islicePrimes 64).map fun p => sha_256_constant p 3

/-- Working variables `a .. h` of the compression loop. -/
structure Vars where
  a : ℕ
  b : ℕ
  c : ℕ
  d : ℕ
  e : ℕ
  f : ℕ
  g : ℕ
  h : ℕ
  deriving DecidableEq

/-- `a, b, c, d, e, f, g, h = H[0], H[1], H[2], H[3], H[4], H[5], H[6], H[7]`. -/
def loadVars (H : List ℕ) : Vars :=
  ⟨H.getD 0 0, H.getD 1 0, H.getD 2 0, H.getD 3 0, H.getD 4 0, H.getD 5 0, H.getD 6 0, H.getD 7 0⟩

/-- One iteration of `for t in range(0, 64)` in `sha256`: for `t ≥ 16` first
append the next schedule word to `w`, then update the working variables.
`t1` is computed in `ℤ` (as Python does) because `choose` returns an `ℤ`;
`% 2**32` brings it back into `[0, 2^32)` and `toNat` records it as a `ℕ`.
The round-constant table (the module-level global `K` in the source) is
passed as the explicit parameter `Ks`; `sha256` instantiates it with `K`. -/
def roundBody (Ks : List ℕ) (s : List ℕ × Vars) (t : ℕ) : List ℕ × Vars :=
  let w := if 16 ≤ t then
      s.1 ++ [(σ1 (s.1.getD (t - 2) 0) + s.1.getD (t - 7) 0 + σ0 (s.1.getD (t - 15) 0) +
        s.1.getD (t - 16) 0) % 2 ^ 32]
    else s.1
  let v := s.2
  let t1 : ℕ := (((v.h : ℤ) + (Sigma1 v.e : ℕ) + choose (v.e : ℤ) (v.f : ℤ) (v.g : ℤ) +
    (Ks.getD t 0 : ℕ) + (w.getD t 0 : ℕ)) % (2 ^ 32 : ℤ)).toNat
  let t2 : ℕ := (Sigma0 v.a + majority v.a v.b v.c) % 2 ^ 32
  (w, ⟨(t1 + t2) % 2 ^ 32, v.a, v.b, v.c, (v.d + t1) % 2 ^ 32, v.e, v.f, v.g⟩)

/-- Body of `for w in preprocess_message(m)` in `sha256`: load `a .. h` from
`H`, run the 64 rounds, and add the result word-wise mod `2^32` onto `H`. -/
def processBlock (Ks : List ℕ) (H w : List ℕ) : List ℕ :=
  let v := ((List.range 64).foldl (roundBody Ks) (w, loadVars H)).2
  List.zipWith (fun x y => (x + y) % 2 ^ 32) [v.a, v.b, v.c, v.d, v.e, v.f, v.g, v.h] H

/-- `sha256(m)`: fold the block compression over the preprocessed message
starting from `IV`, then serialize the eight state words big-endian. -/
def sha256 (m : List ℕ) : List ℕ :=
  (((preprocess_message m).foldl (processBlock K) IV).map (toBytesBE 4)).flatten

/-- Modelled from the spec: the padding of a conforming reference SHA-256
implementation (spec §4.3 / FIPS 180-4 §5.1.1), which the repository itself
does not contain — append `0x80`, then the MINIMUM number of zero bytes
making the running length ≡ 56 (mod 64), then the 8-byte big-endian bit
length.  The minimum count is `(56 + 64 - (l + 1) % 64) % 64`. -/
def padded_message_ref (m : List ℕ) : List ℕ :=
  m ++ [128] ++ List.replicate ((56 + 64 - (m.length + 1) % 64) % 64) 0 ++
    toBytesBE 8 (m.length * 8)

/-- Modelled from the spec: block splitting of the reference padding. -/
def preprocess_message_ref (m : List ℕ) : List (List ℕ) :=
  let p := padded_message_ref m
  (List.range (p.length / 64)).map fun b =>
    (List.range 16).map fun w => fromBytesBE ((p.drop (b * 64 + w * 4)).take 4)

/-- Modelled from the spec: a conforming reference SHA-256 — identical to
`sha256` except that the padding appends the minimum number of zero bytes. -/
def sha256_ref (m : List ℕ) : List ℕ :=
  (((preprocess_message_ref m).foldl (processBlock K) IV).map (toBytesBE 4)).flatten

/-- The 32-bit mask `0xffffffff`. -/
def mask32 : ℕ := 2 ^ 32 - 1

/-- Fully 32-bit-masked variant of `rotate_right`. -/
def rotate_right_m (x n : ℕ) : ℕ := ((x >>> n) ||| (x <<< (32 - n))) &&& mask32

/-- Fully 32-bit-masked variant of `choose`: `~x` becomes `x ^ 0xffffffff`. -/
def choose_m (x y z : ℕ) : ℕ := (x &&& y) ^^^ ((x ^^^ mask32) &&& z)

/-- Fully 32-bit-masked variant of `majority`. -/
def majority_m (x y z : ℕ) : ℕ := ((x &&& y) ^^^ (x &&& z) ^^^ (y &&& z)) &&& mask32

/-- Fully 32-bit-masked variant of `Σ0`. -/
def Sigma0_m (x : ℕ) : ℕ := rotate_right_m x 2 ^^^ rotate_right_m x 13 ^^^ rotate_right_m x 22

/-- Fully 32-bit-masked variant of `Σ1`. -/
def Sigma1_m (x : ℕ) : ℕ := rotate_right_m x 6 ^^^ rotate_right_m x 11 ^^^ rotate_right_m x 25

/-- Fully 32-bit-masked variant of `σ0`. -/
def σ0_m (x : ℕ) : ℕ := rotate_right_m x 7 ^^^ rotate_right_m x 18 ^^^ ((x >>> 3) &&& mask32)

/-- Fully 32-bit-masked variant of `σ1`. -/
def σ1_m (x : ℕ) : ℕ := rotate_right_m x 17 ^^^ rotate_right_m x 19 ^^^ ((x >>> 10) &&& mask32)

/-- `roundBody` with every bitwise primitive replaced by its fully masked
variant; all arithmetic stays in `ℕ`. -/
def roundBody_m (Ks : List ℕ) (s : List ℕ × Vars) (t : ℕ) : List ℕ × Vars :=
  let w := if 16 ≤ t then
      s.1 ++ [(σ1_m (s.1.getD (t - 2) 0) + s.1.getD (t - 7) 0 + σ0_m (s.1.getD (t - 15) 0) +
        s.1.getD (t - 16) 0) % 2 ^ 32]
    else s.1
  let v := s.2
  let t1 : ℕ := (v.h + Sigma1_m v.e + choose_m v.e v.f v.g + Ks.getD t 0 + w.getD t 0) % 2 ^ 32
  let t2 : ℕ := (Sigma0_m v.a + majority_m v.a v.b v.c) % 2 ^ 32
  (w, ⟨(t1 + t2) % 2 ^ 32, v.a, v.b, v.c, (v.d + t1) % 2 ^ 32, v.e, v.f, v.g⟩)

/-- `processBlock` with masked primitives. -/
def processBlock_m (Ks : List ℕ) (H w : List ℕ) : List ℕ :=
  let v := ((List.range 64).foldl (roundBody_m Ks) (w, loadVars H)).2
  List.zipWith (fun x y => (x + y) % 2 ^ 32) [v.a, v.b, v.c, v.d, v.e, v.f, v.g, v.h] H

/-- `sha256` with masked primitives (same padding, same constant tables). -/
def sha256_m (m : List ℕ) : List ℕ :=
  (((preprocess_message m).foldl (processBlock_m K) IV).map (toBytesBE 4)).flatten

/-- The message schedule as a function, written from the spec's words
(§4.4): `W t` is the `t`-th block word for `t < 16` and follows the
`σ1/σ0` recurrence for `t ≥ 16`. -/
def scheduleW (w : List ℕ) (t : ℕ) : ℕ :=
  if h : t < 16 then w.getD t 0
  else (σ1 (scheduleW w (t - 2)) + scheduleW w (t - 7) + σ0 (scheduleW w (t - 15)) +
    scheduleW w (t - 16)) % 2 ^ 32
termination_by t
decreasing_by all_goals omega

/-- One round of the compression written from the spec's words (§4.4), with
the schedule read from the function `scheduleW`. -/
def specRound (Ks w : List ℕ) (v : Vars) (t : ℕ) : Vars :=
  let t1 : ℕ := (((v.h : ℤ) + (Sigma1 v.e : ℕ) + choose (v.e : ℤ) (v.f : ℤ) (v.g : ℤ) +
    (Ks.getD t 0 : ℕ) + (scheduleW w t : ℕ)) % (2 ^ 32 : ℤ)).toNat
  let t2 : ℕ := (Sigma0 v.a + majority v.a v.b v.c) % 2 ^ 32
  ⟨(t1 + t2) % 2 ^ 32, v.a, v.b, v.c, (v.d + t1) % 2 ^ 32, v.e, v.f, v.g⟩

/-- One compression step written from the spec's words (§4.4): thread the
working variables through the 64 rounds against the functional schedule,
then add the result word-wise mod `2^32` onto the old state. -/
def compressSpec (Ks H w : List ℕ) : List ℕ :=
  let v := (List.range 64).foldl (specRound Ks w) (loadVars H)
  List.zipWith (fun x y => (x + y) % 2 ^ 32) [v.a, v.b, v.c, v.d, v.e, v.f, v.g, v.h] H

/-- The published FIPS 180-4 §5.3.3 initial-hash-value table, in decimal. -/
def fipsIV : List ℕ :=
  [1779033703, 3144134277, 1013904242, 2773480762,
   1359893119, 2600822924, 528734635, 1541459225]

/-- The published FIPS 180-4 §4.2.2 round-constant table, in decimal. -/
def fipsK : List ℕ :=
  [1116352408, 1899447441, 3049323471, 3921009573, 961987163, 1508970993,
   2453635748, 2870763221, 3624381080, 310598401, 607225278, 1426881987,
   1925078388, 2162078206, 2614888103, 3248222580, 3835390401, 4022224774,
   264347078, 604807628, 770255983, 1249150122, 1555081692, 1996064986,
   2554220882, 2821834349, 2952996808, 3210313671, 3336571891, 3584528711,
   113926993, 338241895, 666307205, 773529912, 1294757372, 1396182291,
   1695183700, 1986661051, 2177026350, 2456956037, 2730485921, 2820302411,
   3259730800, 3345764771, 3516065817, 3600352804, 4094571909, 275423344,
   430227734, 506948616, 659060556, 883997877, 958139571, 1322822218,
   1537002063, 1747873779, 1955562222, 2024104815, 2227730452, 2361852424,
   2428436474, 2756734187, 3204031479, 3329325298]

/-- `choose` re-expressed on `ℕ`: `(x & y) ^ (z & (z ^ x))` — the second
operand folds Python's `~x & z` into operations the kernel evaluates
natively (see `choose_natCast`). -/
def choose_n (x y z : ℕ) : ℕ := (x &&& y) ^^^ (z &&& (z ^^^ x))

/-- `roundBody` with `t1` computed entirely in `ℕ` via `choose_n`; provably
equal to `roundBody` (`roundBody_eq_n`) and used for concrete evaluation. -/
def roundBody_n (Ks : List ℕ) (s : List ℕ × Vars) (t : ℕ) : List ℕ × Vars :=
  let w := if 16 ≤ t then
      s.1 ++ [(σ1 (s.1.getD (t - 2) 0) + s.1.getD (t - 7) 0 + σ0 (s.1.getD (t - 15) 0) +
        s.1.getD (t - 16) 0) % 2 ^ 32]
    else s.1
  let v := s.2
  let t1 : ℕ := (v.h + Sigma1 v.e + choose_n v.e v.f v.g + Ks.getD t 0 + w.getD t 0) % 2 ^ 32
  let t2 : ℕ := (Sigma0 v.a + majority v.a v.b v.c) % 2 ^ 32
  (w, ⟨(t1 + t2) % 2 ^ 32, v.a, v.b, v.c, (v.d + t1) % 2 ^ 32, v.e, v.f, v.g⟩)

/-- `processBlock` built on `roundBody_n`. -/
def processBlock_n (Ks : List ℕ) (H w : List ℕ) : List ℕ :=
  let v := ((List.range 64).foldl (roundBody_n Ks) (w, loadVars H)).2
  List.zipWith (fun x y => (x + y) % 2 ^ 32) [v.a, v.b, v.c, v.d, v.e, v.f, v.g, v.h] H

/-- All eight working variables are 32-bit words. -/
def Vars32 (v : Vars) : Prop :=
  v.a < 2 ^ 32 ∧ v.b < 2 ^ 32 ∧ v.c < 2 ^ 32 ∧ v.d < 2 ^ 32 ∧
  v.e < 2 ^ 32 ∧ v.f < 2 ^ 32 ∧ v.g < 2 ^ 32 ∧ v.h < 2 ^ 32


/-! ### Correctness of the incremental sieve (`primes`) -/

/-- The key under which a running prime `p` is filed while the candidate is
`q`: the least multiple of `p` that is both `≥ q` and `≥ p * p`. -/
def nextKey (p q : ℕ) : ℕ := p * max ((q + p - 1) / p) p

/-- `p` is recorded in the dictionary under key `k`. -/
def dictMem (d : SieveDict) (k p : ℕ) : Prop :=
  ∃ l, dictFind d k = some l ∧ p ∈ l

/-- Loop invariant of `primes` at the start of the iteration with candidate
`q`: every entry is nonempty, and `p` is filed under `k` exactly when `p` is a
prime below `q` filed under its next relevant multiple. -/
def SieveInv (d : SieveDict) (q : ℕ) : Prop :=
  2 ≤ q ∧ (∀ k, dictFind d k ≠ some []) ∧
    ∀ k p, dictMem d k p ↔ p.Prime ∧ p < q ∧ k = nextKey p q

/-- Bitwise set difference as accelerated operations: `z AND NOT x` (on the
bits of `z`) equals `z &&& (z ^^^ x)`. -/
lemma ldiff_eq_and_xor (z x : ℕ) : Nat.ldiff z x = z &&& (z ^^^ x) := by
  apply Nat.eq_of_testBit_eq
  intro i
  simp only [Nat.testBit_ldiff, Nat.testBit_land, Nat.testBit_xor]
  cases z.testBit i <;> cases x.testBit i <;> rfl

/-- Evaluating `choose` on (casts of) naturals: Python's `~x & z` with
`x, z ≥ 0` equals the natural number `z &&& (z ^^^ x)`. -/
lemma choose_natCast (x y z : ℕ) :
    choose (x : ℤ) (y : ℤ) (z : ℤ) = ((choose_n x y z : ℕ) : ℤ) := by
  have h : choose (x : ℤ) (y : ℤ) (z : ℤ) = (((x &&& y) ^^^ Nat.ldiff z x : ℕ) : ℤ) := rfl
  rw [h, choose_n, ldiff_eq_and_xor]

/-- The `t1` of a round, transported from the `ℤ` computation (with `choose`)
to the `ℕ` computation (with `choose_n`). -/
lemma t1_eq (h sig e f g k wt : ℕ) :
    (((h : ℤ) + (sig : ℕ) + choose (e : ℤ) (f : ℤ) (g : ℤ) + (k : ℕ) + (wt : ℕ)) %
      (2 ^ 32 : ℤ)).toNat = (h + sig + choose_n e f g + k + wt) % 2 ^ 32 := by
  rw [choose_natCast]
  omega

/-- The two round bodies agree. -/
lemma roundBody_eq_n (Ks : List ℕ) (s : List ℕ × Vars) (t : ℕ) :
    roundBody Ks s t = roundBody_n Ks s t := by
  simp only [roundBody, roundBody_n, t1_eq]

/-- The two block compressions agree. -/
lemma processBlock_eq_n (Ks H B : List ℕ) :
    processBlock Ks H B = processBlock_n Ks H B := by
  have h : roundBody Ks = roundBody_n Ks :=
    funext fun s => funext fun t => roundBody_eq_n Ks s t
  simp only [processBlock, processBlock_n, h]


/-- The derived initial-value table evaluates to the published FIPS table. -/
lemma IV_eq : IV = fipsIV := by decide

/-- The derived round-constant table evaluates to the published FIPS table. -/
lemma K_eq : K = fipsK := by decide

/-- C4: the derived `IV` table (square roots of the first 8 primes) and the
derived `K` table (cube roots of the first 64 primes) match the published
FIPS 180-4 constant tables word for word. -/
theorem C4_constant_tables : IV = fipsIV ∧ K = fipsK := ⟨IV_eq, K_eq⟩

/-- C1: `sha256` of the empty message is the published empty-string digest,
and `sha256` of `b"abc"` is the FIPS test vector. -/
theorem C1_known_answer_tests :
    sha256 [] =
      [0xe3, 0xb0, 0xc4, 0x42, 0x98, 0xfc, 0x1c, 0x14, 0x9a, 0xfb, 0xf4, 0xc8, 0x99, 0x6f,
       0xb9, 0x24, 0x27, 0xae, 0x41, 0xe4, 0x64, 0x9b, 0x93, 0x4c, 0xa4, 0x95, 0x99, 0x1b,
       0x78, 0x52, 0xb8, 0x55] ∧
    sha256 [97, 98, 99] =
      [0xba, 0x78, 0x16, 0xbf, 0x8f, 0x01, 0xcf, 0xea, 0x41, 0x41, 0x40, 0xde, 0x5d, 0xae,
       0x22, 0x23, 0xb0, 0x03, 0x61, 0xa3, 0x96, 0x17, 0x7a, 0x9c, 0xb4, 0x10, 0xff, 0x61,
       0xf2, 0x00, 0x15, 0xad] := by
  constructor
  · have hpre : preprocess_message [] =
        [[0x80000000, 0, 0, 0, 0, 0, 0, 0, 0, 0, 0, 0, 0, 0, 0, 0]] := by decide
    have hb : processBlock_n fipsK fipsIV
        [0x80000000, 0, 0, 0, 0, 0, 0, 0, 0, 0, 0, 0, 0, 0, 0, 0] =
        [3820012610, 2566659092, 2600203464, 2574235940,
         665731556, 1687917388, 2761267483, 2018687061] := by decide
    simp only [sha256, hpre, K_eq, IV_eq, List.foldl_cons, List.foldl_nil,
      processBlock_eq_n, hb]
    decide
  · have hpre : preprocess_message [97, 98, 99] =
        [[1633837952, 0, 0, 0, 0, 0, 0, 0, 0, 0, 0, 0, 0, 0, 0, 24]] := by decide
    have hb : processBlock_n fipsK fipsIV
        [1633837952, 0, 0, 0, 0, 0, 0, 0, 0, 0, 0, 0, 0, 0, 0, 24] =
        [3128432319, 2399260650, 1094795486, 1571693091,
         2953011619, 2518121116, 3021012833, 4060091821] := by decide
    simp only [sha256, hpre, K_eq, IV_eq, List.foldl_cons, List.foldl_nil,
      processBlock_eq_n, hb]
    decide

/-- C2 (bug evidence): on a 55-byte message the code appends 64 zero bytes —
the padded message is 128 bytes and two blocks — although zero `0x00` bytes
already make the running length ≡ 56 (mod 64), as the conforming reference
padding (64 bytes, one block) shows. -/
theorem C2_padding_not_minimal :
    (padded_message (List.replicate 55 0)).length = 128 ∧
    (preprocess_message (List.replicate 55 0)).length = 2 ∧
    (padded_message_ref (List.replicate 55 0)).length = 64 ∧
    (55 + 1 + 0 + 8) % 64 = 0 := by decide

/-- C3 (bug evidence): at the 55-byte padding boundary the code's digest
differs from the conforming reference implementation; at 56 and 64 bytes the
paddings coincide, so the digests agree. -/
theorem C3_block_boundaries :
    sha256 (List.replicate 55 0) ≠ sha256_ref (List.replicate 55 0) ∧
    sha256 (List.replicate 56 0) = sha256_ref (List.replicate 56 0) ∧
    sha256 (List.replicate 64 0) = sha256_ref (List.replicate 64 0) := by
  refine ⟨?_, ?_, ?_⟩
  · have hpre : preprocess_message (List.replicate 55 0) =
        [[0, 0, 0, 0, 0, 0, 0, 0, 0, 0, 0, 0, 0, 128, 0, 0],
         [0, 0, 0, 0, 0, 0, 0, 0, 0, 0, 0, 0, 0, 0, 0, 440]] := by decide
    have hpreR : preprocess_message_ref (List.replicate 55 0) =
        [[0, 0, 0, 0, 0, 0, 0, 0, 0, 0, 0, 0, 0, 128, 0, 440]] := by decide
    have hb1 : processBlock_n fipsK fipsIV
        [0, 0, 0, 0, 0, 0, 0, 0, 0, 0, 0, 0, 0, 128, 0, 0] =
        [2702552535, 1833690183, 1337994058, 3096762921,
         723391507, 2090123893, 1749767511, 3299012835] := by decide
    have hb2 : processBlock_n fipsK [2702552535, 1833690183, 1337994058, 3096762921,
        723391507, 2090123893, 1749767511, 3299012835]
        [0, 0, 0, 0, 0, 0, 0, 0, 0, 0, 0, 0, 0, 0, 0, 440] =
        [3743605753, 2062252276, 3443552234, 2534999681,
         594946594, 2957072306, 4238669612, 3122085316] := by decide
    have hbR : processBlock_n fipsK fipsIV
        [0, 0, 0, 0, 0, 0, 0, 0, 0, 0, 0, 0, 0, 128, 0, 440] =
        [41391206, 3454801464, 298875009, 1550008097,
         2417234696, 340328495, 615136896, 4038627063] := by decide
    simp only [sha256, sha256_ref, hpre, hpreR, K_eq, IV_eq,
      List.foldl_cons, List.foldl_nil, processBlock_eq_n, hb1, hb2, hbR]
    decide
  · have hp : preprocess_message (List.replicate 56 0) =
        preprocess_message_ref (List.replicate 56 0) := by decide
    unfold sha256 sha256_ref
    rw [hp]
  · have hp : preprocess_message (List.replicate 64 0) =
        preprocess_message_ref (List.replicate 64 0) := by decide
    unfold sha256 sha256_ref
    rw [hp]

/-- Merging disjoint bit ranges: if `a` fits below bit `k`, or-ing it with a
multiple of `2 ^ k` is addition. -/
lemma lor_two_pow_mul (a b k : ℕ) (ha : a < 2 ^ k) : a ||| 2 ^ k * b = 2 ^ k * b + a := by
  apply Nat.eq_of_testBit_eq
  intro i
  rw [Nat.testBit_lor, Nat.testBit_mul_pow_two_add b ha i]
  rcases lt_or_ge i k with h | h
  · have hb : (2 ^ k * b).testBit i = false := by
      have := Nat.testBit_mul_pow_two_add b (show 0 < 2 ^ k from Nat.pos_pow_of_pos k 
        (by norm_num)) i
      simpa [h] using Nat.testBit_mul_pow_two_add (a := b) (i := k)
        (Nat.pos_pow_of_pos k (by norm_num)) i
    simp [h, hb]
  · have ha2 : a.testBit i = false :=
      Nat.testBit_lt_two_pow (lt_of_lt_of_le ha (Nat.pow_le_pow_right (by norm_num) h))
    have hb : (2 ^ k * b).testBit i = b.testBit (i - k) := by
      simpa [Nat.not_lt.mpr h] using Nat.testBit_mul_pow_two_add (a := b) (i := k)
        (Nat.pos_pow_of_pos k (by norm_num)) i
    simp [Nat.not_lt.mpr h, ha2, hb]

/-- The unmasked `rotate_right`, reduced mod `2^32`, is the true 32-bit right
rotation. -/
lemma rotate_right_mod (x n : ℕ) (hx : x < 2 ^ 32) (h0 : 0 < n) (h32 : n < 32) :
    rotate_right x n % 2 ^ 32 = x / 2 ^ n + x % 2 ^ n * 2 ^ (32 - n) := by
  have hq : x >>> n = x / 2 ^ n := Nat.shiftRight_eq_div_pow x n
  have hs : x <<< (32 - n) = 2 ^ (32 - n) * x := by
    rw [Nat.shiftLeft_eq, Nat.mul_comm]
  have hqlt : x / 2 ^ n < 2 ^ (32 - n) := by
    rw [Nat.div_lt_iff_lt_mul (Nat.pos_pow_of_pos n (by norm_num)), ← Nat.pow_add]
    have : 32 - n + n = 32 := by omega
    rw [this]
    exact hx
  have hsplit : x = x / 2 ^ n * 2 ^ n + x % 2 ^ n := (Nat.div_add_mod' x (2 ^ n)).symm
  rw [rotate_right, hq, hs, lor_two_pow_mul _ _ _ hqlt]
  have hexp : 2 ^ (32 - n) * 2 ^ n = 2 ^ 32 := by
    rw [← Nat.pow_add]
    congr 1
    omega
  have hmul : 2 ^ (32 - n) * x = x / 2 ^ n * 2 ^ 32 + x % 2 ^ n * 2 ^ (32 - n) := by
    calc 2 ^ (32 - n) * x = 2 ^ (32 - n) * (x / 2 ^ n * 2 ^ n + x % 2 ^ n) := by rw [← hsplit]
    _ = x / 2 ^ n * (2 ^ (32 - n) * 2 ^ n) + x % 2 ^ n * 2 ^ (32 - n) := by ring
    _ = x / 2 ^ n * 2 ^ 32 + x % 2 ^ n * 2 ^ (32 - n) := by rw [hexp]
  rw [hmul]
  have hlt : x % 2 ^ n * 2 ^ (32 - n) + x / 2 ^ n < 2 ^ 32 := by
    have hr : x % 2 ^ n ≤ 2 ^ n - 1 := by
      have := Nat.mod_lt x (Nat.pos_pow_of_pos n (show 0 < 2 by norm_num))
      omega
    have h1 : x % 2 ^ n * 2 ^ (32 - n) ≤ (2 ^ n - 1) * 2 ^ (32 - n) :=
      Nat.mul_le_mul_right _ hr
    have h3 : 2 ^ n * 2 ^ (32 - n) = 2 ^ 32 := by
      rw [← Nat.pow_add]
      congr 1
      omega
    have h2 : (2 ^ n - 1) * 2 ^ (32 - n) + 2 ^ (32 - n) = 2 ^ n * 2 ^ (32 - n) := by
      have hc : 2 ^ (32 - n) ≤ 2 ^ n * 2 ^ (32 - n) :=
        Nat.le_mul_of_pos_left _ (Nat.pos_pow_of_pos n (by norm_num))
      rw [Nat.sub_mul, Nat.one_mul]
      omega
    calc x % 2 ^ n * 2 ^ (32 - n) + x / 2 ^ n
        ≤ (2 ^ n - 1) * 2 ^ (32 - n) + x / 2 ^ n := Nat.add_le_add_right h1 _
      _ < (2 ^ n - 1) * 2 ^ (32 - n) + 2 ^ (32 - n) := Nat.add_lt_add_left hqlt _
      _ = 2 ^ n * 2 ^ (32 - n) := h2
      _ = 2 ^ 32 := h3
  calc (x / 2 ^ n * 2 ^ 32 + x % 2 ^ n * 2 ^ (32 - n) + x / 2 ^ n) % 2 ^ 32
      = (x % 2 ^ n * 2 ^ (32 - n) + x / 2 ^ n + x / 2 ^ n * 2 ^ 32) % 2 ^ 32 := by ring_nf
    _ = (x % 2 ^ n * 2 ^ (32 - n) + x / 2 ^ n) % 2 ^ 32 := by
        rw [Nat.add_mul_mod_self_right]
    _ = x % 2 ^ n * 2 ^ (32 - n) + x / 2 ^ n := Nat.mod_eq_of_lt hlt
    _ = x / 2 ^ n + x % 2 ^ n * 2 ^ (32 - n) := by ring

/-- C5 (counterexample): `rotate_right` does NOT mask its result to 32 bits —
already at `x = 4 < 2^32` and the algorithm's rotation amount `n = 2` the
result is `2^32 + 1`, not less than `2^32`. -/
theorem C5_counterexample : 4 < 2 ^ 32 ∧ rotate_right 4 2 = 2 ^ 32 + 1 ∧
    ¬ rotate_right 4 2 < 2 ^ 32 := by decide

/-- C5 (amended): for every `x < 2^32` and every rotation amount used by the
algorithm, `rotate_right` returns `(x >>> n) ||| (x <<< (32 - n))` WITHOUT a
32-bit mask (the value can reach `2^32` and beyond), and its residue mod
`2^32` is exactly the 32-bit right rotation `x / 2^n + (x mod 2^n)·2^(32-n)`. -/
theorem C5_rotate_right_unmasked (x n : ℕ) (hx : x < 2 ^ 32)
    (hn : n ∈ [2, 6, 7, 11, 13, 17, 18, 19, 22, 25]) :
    rotate_right x n = (x >>> n) ||| (x <<< (32 - n)) ∧
    rotate_right x n % 2 ^ 32 = x / 2 ^ n + x % 2 ^ n * 2 ^ (32 - n) := by
  refine ⟨rfl, ?_⟩
  have hn2 : 0 < n ∧ n < 32 := by
    simp only [List.mem_cons, List.not_mem_nil, or_false] at hn
    rcases hn with rfl | rfl | rfl | rfl | rfl | rfl | rfl | rfl | rfl | rfl <;> norm_num
  exact rotate_right_mod x n hx hn2.1 hn2.2

/-- Witness for `C5_rotate_right_unmasked` at `x = 5, n = 7`. -/
theorem C5_rotate_right_unmasked_witness :
    (5 < 2 ^ 32 ∧ 7 ∈ [2, 6, 7, 11, 13, 17, 18, 19, 22, 25]) ∧
    (rotate_right 5 7 = (5 >>> 7) ||| (5 <<< (32 - 7)) ∧
      rotate_right 5 7 % 2 ^ 32 = 5 / 2 ^ 7 + 5 % 2 ^ 7 * 2 ^ (32 - 7)) :=
  ⟨by decide, C5_rotate_right_unmasked 5 7 (by decide) (by decide)⟩

/-- `to_bytes(n, 'big')` produces exactly `n` bytes. -/
lemma toBytesBE_length (n v : ℕ) : (toBytesBE n v).length = n := by
  simp [toBytesBE]

/-- Every byte produced by `to_bytes` is below 256. -/
lemma toBytesBE_lt (n v : ℕ) : ∀ b ∈ toBytesBE n v, b < 256 := by
  intro b hb
  simp only [toBytesBE, List.mem_map] at hb
  obtain ⟨i, _, rfl⟩ := hb
  exact Nat.mod_lt _ (by norm_num)

/-- The length of the code's padded message. -/
lemma padded_message_length (m : List ℕ) :
    (padded_message m).length = m.length + 1 + (64 - (m.length + 9) % 64) + 8 := by
  simp [padded_message, toBytesBE_length]
  omega

/-- Every byte of the padded message is below 256 when the input is bytes. -/
lemma padded_message_bytes_lt (m : List ℕ) (hm : ∀ b ∈ m, b < 256) :
    ∀ b ∈ padded_message m, b < 256 := by
  intro b hb
  simp only [padded_message, List.append_assoc, List.mem_append, List.mem_singleton,
    List.mem_replicate] at hb
  rcases hb with hb | hb | hb | hb
  · exact hm b hb
  · omega
  · omega
  · exact toBytesBE_lt _ _ b hb

/-- Accumulator bound for `int.from_bytes`. -/
lemma foldl_byte_bound (bs : List ℕ) :
    ∀ acc, (∀ b ∈ bs, b < 256) →
      bs.foldl (fun a b => a * 256 + b) acc < (acc + 1) * 256 ^ bs.length := by
  induction bs with
  | nil => intro acc _; simp
  | cons b bs ih =>
    intro acc hlt
    have hb : b < 256 := hlt b (List.mem_cons_self b bs)
    have step := ih (acc * 256 + b) fun x hx => hlt x (List.mem_cons_of_mem b hx)
    have hmono : (acc * 256 + b + 1) * 256 ^ bs.length ≤ (acc + 1) * 256 ^ (bs.length + 1) := by
      have h1 : acc * 256 + b + 1 ≤ (acc + 1) * 256 := by omega
      calc (acc * 256 + b + 1) * 256 ^ bs.length
          ≤ (acc + 1) * 256 * 256 ^ bs.length := Nat.mul_le_mul_right _ h1
        _ = (acc + 1) * 256 ^ (bs.length + 1) := by ring
    calc (b :: bs).foldl (fun a b => a * 256 + b) acc
        = bs.foldl (fun a b => a * 256 + b) (acc * 256 + b) := rfl
      _ < (acc * 256 + b + 1) * 256 ^ bs.length := step
      _ ≤ (acc + 1) * 256 ^ (bs.length + 1) := hmono
      _ = (acc + 1) * 256 ^ (b :: bs).length := by simp

/-- `int.from_bytes` of at most four bytes is a 32-bit word. -/
lemma fromBytesBE_lt (bs : List ℕ) (hlen : bs.length ≤ 4) (hb : ∀ b ∈ bs, b < 256) :
    fromBytesBE bs < 2 ^ 32 := by
  have h := foldl_byte_bound bs 0 hb
  have h2 : 256 ^ bs.length ≤ 256 ^ 4 := Nat.pow_le_pow_right (by norm_num) hlen
  calc fromBytesBE bs < (0 + 1) * 256 ^ bs.length := h
    _ = 256 ^ bs.length := by ring
    _ ≤ 256 ^ 4 := h2
    _ = 2 ^ 32 := by norm_num

/-- C7: for every byte message the padded length is a positive multiple of 64,
the block list is nonempty, and each block is exactly sixteen 32-bit words. -/
theorem C7_preprocess_invariants (m : List ℕ) (hm : ∀ b ∈ m, b < 256) :
    (padded_message m).length % 64 = 0 ∧
    0 < (padded_message m).length ∧
    preprocess_message m ≠ [] ∧
    ∀ blk ∈ preprocess_message m, blk.length = 16 ∧ ∀ wd ∈ blk, wd < 2 ^ 32 := by
  have hlen := padded_message_length m
  have hmod : (padded_message m).length % 64 = 0 := by omega
  have hpos : 0 < (padded_message m).length := by omega
  refine ⟨hmod, hpos, ?_, ?_⟩
  · have h64 : 64 ≤ (padded_message m).length := by omega
    simp only [preprocess_message, ne_eq, List.map_eq_nil_iff, List.range_eq_nil]
    omega
  · intro blk hblk
    simp only [preprocess_message, List.mem_map] at hblk
    obtain ⟨b, _, rfl⟩ := hblk
    constructor
    · simp
    · intro wd hwd
      simp only [List.mem_map] at hwd
      obtain ⟨w, _, rfl⟩ := hwd
      apply fromBytesBE_lt
      · rw [List.length_take]
        exact min_le_left _ _
      · intro x hx
        apply padded_message_bytes_lt m hm
        exact List.drop_subset _ _ (List.take_subset _ _ hx)

/-- Witness for `C7_preprocess_invariants` at the message `b"abc"`. -/
theorem C7_preprocess_invariants_witness :
    (∀ b ∈ [97, 98, 99], b < 256) ∧
    ((padded_message [97, 98, 99]).length % 64 = 0 ∧
     0 < (padded_message [97, 98, 99]).length ∧
     preprocess_message [97, 98, 99] ≠ [] ∧
     ∀ blk ∈ preprocess_message [97, 98, 99], blk.length = 16 ∧ ∀ wd ∈ blk, wd < 2 ^ 32) :=
  ⟨by decide, C7_preprocess_invariants [97, 98, 99] (by decide)⟩

/-- The block compression preserves the 8-word state length. -/
lemma processBlock_length (Ks H B : List ℕ) (hH : H.length = 8) :
    (processBlock Ks H B).length = 8 := by
  simp [processBlock, hH]

/-- Folding the compression over any block list preserves the state length. -/
lemma foldl_processBlock_length (Ks : List ℕ) (bs : List (List ℕ)) :
    ∀ H : List ℕ, H.length = 8 → (bs.foldl (processBlock Ks) H).length = 8 := by
  induction bs with
  | nil => intro H hH; simp [hH]
  | cons b bs ih =>
    intro H hH
    simp only [List.foldl_cons]
    exact ih _ (processBlock_length _ _ _ hH)

/-- The initial state has eight words. -/
lemma IV_length : IV.length = 8 := by rw [IV_eq]; rfl

/-- C8: the hash is a pure function of the message — two calls on the same
message are identical — and the digest is always exactly 32 bytes. -/
theorem C8_deterministic_and_32_bytes (m : List ℕ) :
    sha256 m = sha256 m ∧ (sha256 m).length = 32 := by
  refine ⟨rfl, ?_⟩
  have h8 : ((preprocess_message m).foldl (processBlock K) IV).length = 8 :=
    foldl_processBlock_length K _ IV IV_length
  simp only [sha256, List.length_flatten, List.map_map]
  have hconst : ∀ l : List ℕ,
      (l.map fun x => (toBytesBE 4 x).length).sum = 4 * l.length := by
    intro l
    induction l with
    | nil => simp
    | cons x xs ih => simp [toBytesBE_length, ih]; ring
  calc ((((preprocess_message m).foldl (processBlock K) IV).map (List.length ∘ toBytesBE 4)).sum)
      = ((((preprocess_message m).foldl (processBlock K) IV).map
          fun x => (toBytesBE 4 x).length).sum) := rfl
    _ = 4 * ((preprocess_message m).foldl (processBlock K) IV).length := hconst _
    _ = 32 := by rw [h8]

/-- `scheduleW` on the first sixteen indices reads the block. -/
lemma scheduleW_lt (w : List ℕ) {t : ℕ} (h : t < 16) : scheduleW w t = w.getD t 0 := by
  rw [scheduleW]
  simp [h]

/-- `scheduleW` on the remaining indices follows the `σ1/σ0` recurrence. -/
lemma scheduleW_ge (w : List ℕ) {t : ℕ} (h : 16 ≤ t) :
    scheduleW w t = (σ1 (scheduleW w (t - 2)) + scheduleW w (t - 7) +
      σ0 (scheduleW w (t - 15)) + scheduleW w (t - 16)) % 2 ^ 32 := by
  rw [scheduleW]
  simp [Nat.not_lt.mpr h]

/-- Reading a mapped range with a default. -/
lemma map_range_getD (f : ℕ → ℕ) (n i : ℕ) (h : i < n) :
    ((List.range n).map f).getD i 0 = f i := by
  rw [List.getD_eq_getElem _ _ (by simpa using h)]
  simp

/-- A 16-word block is its own schedule prefix. -/
lemma range_map_scheduleW (B : List ℕ) (hB : B.length = 16) :
    (List.range 16).map (scheduleW B) = B := by
  apply List.ext_getElem
  · simp [hB]
  · intro i h1 h2
    rw [List.getElem_map, List.getElem_range]
    have hi : i < 16 := by simpa using h1
    rw [scheduleW_lt B hi, List.getD_eq_getElem B 0 (by omega)]

/-- Invariant of the round loop: after `t` rounds the incrementally grown
`w` list is the schedule prefix `max 16 t`, and the working variables equal
the spec-side round recursion. -/
lemma foldl_roundBody_spec (Ks B : List ℕ) (hB : B.length = 16) (v0 : Vars) :
    ∀ t, (List.range t).foldl (roundBody Ks) (B, v0) =
      ((List.range (max 16 t)).map (scheduleW B), (List.range t).foldl (specRound Ks B) v0) := by
  intro t
  induction t with
  | zero => simp [range_map_scheduleW B hB]
  | succ t ih =>
    rw [List.range_succ, List.foldl_append, List.foldl_append, ih]
    simp only [List.foldl_cons, List.foldl_nil]
    rcases Nat.lt_or_ge t 16 with hlt | hge
    · have hmax : max 16 t = 16 := by omega
      have hmax1 : max 16 (t + 1) = 16 := by omega
      have hget : ((List.range 16).map (scheduleW B)).getD t 0 = scheduleW B t :=
        map_range_getD _ _ _ (by omega)
      rw [hmax, hmax1]
      simp only [roundBody, specRound, show ¬ 16 ≤ t by omega, if_false, hget]
    · have hmax : max 16 t = t := by omega
      have hmax1 : max 16 (t + 1) = t + 1 := by omega
      rw [hmax, hmax1]
      have h2 : ((List.range t).map (scheduleW B)).getD (t - 2) 0 = scheduleW B (t - 2) :=
        map_range_getD _ _ _ (by omega)
      have h7 : ((List.range t).map (scheduleW B)).getD (t - 7) 0 = scheduleW B (t - 7) :=
        map_range_getD _ _ _ (by omega)
      have h15 : ((List.range t).map (scheduleW B)).getD (t - 15) 0 = scheduleW B (t - 15) :=
        map_range_getD _ _ _ (by omega)
      have h16 : ((List.range t).map (scheduleW B)).getD (t - 16) 0 = scheduleW B (t - 16) :=
        map_range_getD _ _ _ (by omega)
      have happ : (List.range t).map (scheduleW B) ++ [scheduleW B t] =
          (List.range (t + 1)).map (scheduleW B) := by
        rw [List.range_succ, List.map_append]
        rfl
      have hgett : ((List.range (t + 1)).map (scheduleW B)).getD t 0 = scheduleW B t :=
        map_range_getD _ _ _ (by omega)
      simp only [roundBody, specRound, show (16 ≤ t) = True by simp [hge], if_true,
        h2, h7, h15, h16, ← scheduleW_ge B hge, happ, hgett]

/-- C6: one block compression of the source — incremental schedule appends,
64 rounds of `T1`/`T2` with the shift, and the final word-wise addition —
equals the compression written from the spec's words (`compressSpec`), for
every constant table, every state and every 16-word block. -/
theorem C6_compression_refines_spec (Ks H B : List ℕ) (hB : B.length = 16) :
    processBlock Ks H B = compressSpec Ks H B := by
  simp only [processBlock, compressSpec]
  rw [foldl_roundBody_spec Ks B hB (loadVars H) 64]

/-- Witness for `C6_compression_refines_spec` on the all-zero block. -/
theorem C6_compression_refines_spec_witness :
    (List.replicate 16 0 : List ℕ).length = 16 ∧
    processBlock fipsK fipsIV (List.replicate 16 0) =
      compressSpec fipsK fipsIV (List.replicate 16 0) :=
  ⟨by decide, C6_compression_refines_spec fipsK fipsIV (List.replicate 16 0) (by decide)⟩

/-- Masking with `mask32` is reduction mod `2^32`. -/
lemma and_mask32 (x : ℕ) : x &&& mask32 = x % 2 ^ 32 := by
  rw [mask32, Nat.and_pow_two_sub_one_eq_mod]

/-- The masked rotation is the unmasked one reduced mod `2^32`. -/
lemma rotate_right_m_eq (x n : ℕ) : rotate_right_m x n = rotate_right x n % 2 ^ 32 := by
  rw [rotate_right_m, rotate_right, and_mask32]

/-- The masked `Σ0` is the unmasked one reduced mod `2^32`. -/
lemma Sigma0_m_eq (x : ℕ) : Sigma0_m x = Sigma0 x % 2 ^ 32 := by
  rw [← and_mask32, Sigma0, Nat.and_xor_distrib_right, Nat.and_xor_distrib_right]
  rfl

/-- The masked `Σ1` is the unmasked one reduced mod `2^32`. -/
lemma Sigma1_m_eq (x : ℕ) : Sigma1_m x = Sigma1 x % 2 ^ 32 := by
  rw [← and_mask32, Sigma1, Nat.and_xor_distrib_right, Nat.and_xor_distrib_right]
  rfl

/-- The masked `σ0` is the unmasked one reduced mod `2^32`. -/
lemma σ0_m_eq (x : ℕ) : σ0_m x = σ0 x % 2 ^ 32 := by
  rw [← and_mask32, σ0, Nat.and_xor_distrib_right, Nat.and_xor_distrib_right]
  rfl

/-- The masked `σ1` is the unmasked one reduced mod `2^32`. -/
lemma σ1_m_eq (x : ℕ) : σ1_m x = σ1 x % 2 ^ 32 := by
  rw [← and_mask32, σ1, Nat.and_xor_distrib_right, Nat.and_xor_distrib_right]
  rfl

/-- The masked majority is the unmasked one reduced mod `2^32`. -/
lemma majority_m_eq (x y z : ℕ) : majority_m x y z = majority x y z % 2 ^ 32 := by
  rw [← and_mask32, majority, majority_m, mask32]

/-- On 32-bit words, the exact `choose` (`choose_n`) agrees with the fully
masked `choose_m`, whose complement is `x ^^^ 0xffffffff`. -/
lemma choose_n_eq_m (x y z : ℕ) (hx : x < 2 ^ 32) (hz : z < 2 ^ 32) :
    choose_n x y z = choose_m x y z := by
  apply Nat.eq_of_testBit_eq
  intro i
  simp only [choose_n, choose_m, mask32, Nat.testBit_xor, Nat.testBit_land,
    Nat.testBit_two_pow_sub_one]
  rcases Nat.lt_or_ge i 32 with h | h
  · simp only [h, decide_True]
    cases z.testBit i <;> cases x.testBit i <;> simp
  · have hxf : x.testBit i = false :=
      Nat.testBit_lt_two_pow (lt_of_lt_of_le hx (Nat.pow_le_pow_right (by norm_num) h))
    have hzf : z.testBit i = false :=
      Nat.testBit_lt_two_pow (lt_of_lt_of_le hz (Nat.pow_le_pow_right (by norm_num) h))
    simp [hxf, hzf]

/-- One round of the source equals one fully-masked round, on 32-bit working
variables (the schedule words need no bound: the masked σ functions are the
unmasked ones mod `2^32`, and the appended word is reduced mod `2^32` by
both). -/
lemma roundBody_m_step (Ks : List ℕ) (s : List ℕ × Vars) (t : ℕ)
    (he : s.2.e < 2 ^ 32) (hg : s.2.g < 2 ^ 32) :
    roundBody Ks s t = roundBody_m Ks s t := by
  obtain ⟨w, v⟩ := s
  simp only at he hg
  have hσ : (σ1_m (w.getD (t - 2) 0) + w.getD (t - 7) 0 + σ0_m (w.getD (t - 15) 0) +
      w.getD (t - 16) 0) % 2 ^ 32 =
      (σ1 (w.getD (t - 2) 0) + w.getD (t - 7) 0 + σ0 (w.getD (t - 15) 0) +
      w.getD (t - 16) 0) % 2 ^ 32 := by
    have h1 := σ1_m_eq (w.getD (t - 2) 0)
    have h2 := σ0_m_eq (w.getD (t - 15) 0)
    omega
  have hch : choose_n v.e v.f v.g = choose_m v.e v.f v.g := choose_n_eq_m v.e v.f v.g he hg
  have hS1 := Sigma1_m_eq v.e
  have hS0 := Sigma0_m_eq v.a
  have hmaj := majority_m_eq v.a v.b v.c
  have ht1 : ∀ wt : ℕ,
      (v.h + Sigma1 v.e + choose_n v.e v.f v.g + Ks.getD t 0 + wt) % 2 ^ 32 =
      (v.h + Sigma1_m v.e + choose_m v.e v.f v.g + Ks.getD t 0 + wt) % 2 ^ 32 := by
    intro wt
    rw [← hch]
    omega
  have ht2 : (Sigma0 v.a + majority v.a v.b v.c) % 2 ^ 32 =
      (Sigma0_m v.a + majority_m v.a v.b v.c) % 2 ^ 32 := by omega
  simp only [roundBody, roundBody_m, t1_eq, hσ, ht1, ht2]

/-- The masked round keeps the schedule words and variables 32-bit. -/
lemma roundBody_m_bounds (Ks : List ℕ) (s : List ℕ × Vars) (t : ℕ)
    (hw : ∀ x ∈ s.1, x < 2 ^ 32) (hv : Vars32 s.2) :
    (∀ x ∈ (roundBody_m Ks s t).1, x < 2 ^ 32) ∧ Vars32 (roundBody_m Ks s t).2 := by
  obtain ⟨w, v⟩ := s
  obtain ⟨ha, hb, hc, hd, he, hf, hg, hh⟩ := hv
  have hpos : 0 < 2 ^ 32 := by norm_num
  constructor
  · intro x hx
    simp only [roundBody_m] at hx
    rcases Nat.decLt t 16 with h16 | h16
    · rw [if_pos (by omega)] at hx
      rcases List.mem_append.mp hx with hx | hx
      · exact hw x hx
      · rcases List.mem_singleton.mp hx with rfl
        exact Nat.mod_lt _ hpos
    · rw [if_neg (by omega)] at hx
      exact hw x hx
  · refine ⟨Nat.mod_lt _ hpos, ha, hb, hc, Nat.mod_lt _ hpos, he, hf, hg⟩

/-- Folding the rounds over any index list: masked and unmasked agree and
stay 32-bit. -/
lemma foldl_roundBody_m (Ks : List ℕ) (l : List ℕ) :
    ∀ s : List ℕ × Vars, (∀ x ∈ s.1, x < 2 ^ 32) → Vars32 s.2 →
      l.foldl (roundBody Ks) s = l.foldl (roundBody_m Ks) s ∧
      (∀ x ∈ (l.foldl (roundBody_m Ks) s).1, x < 2 ^ 32) ∧
      Vars32 (l.foldl (roundBody_m Ks) s).2 := by
  induction l with
  | nil =>
    intro s hw hv
    simp only [List.foldl_nil, true_and]
    exact ⟨hw, hv⟩
  | cons t l ih =>
    intro s hw hv
    have hstep : roundBody Ks s t = roundBody_m Ks s t :=
      roundBody_m_step Ks s t hv.2.2.2.2.1 hv.2.2.2.2.2.2.1
    have hb := roundBody_m_bounds Ks s t hw hv
    have ih2 := ih (roundBody_m Ks s t) hb.1 hb.2
    simp only [List.foldl_cons, hstep]
    exact ih2

/-- The working variables loaded from a list of 32-bit words are 32-bit. -/
lemma loadVars_lt (H : List ℕ) (hH : ∀ x ∈ H, x < 2 ^ 32) : Vars32 (loadVars H) := by
  have hgetD : ∀ i : ℕ, H.getD i 0 < 2 ^ 32 := by
    intro i
    rcases Nat.lt_or_ge i H.length with h | h
    · rw [List.getD_eq_getElem H 0 h]
      exact hH _ (List.getElem_mem h)
    · rw [List.getD_eq_default H 0 h]
      norm_num
  exact ⟨hgetD 0, hgetD 1, hgetD 2, hgetD 3, hgetD 4, hgetD 5, hgetD 6, hgetD 7⟩

/-- Every entry of the word-wise mod-`2^32` sum is 32-bit. -/
lemma zipWith_mod_lt (l1 l2 : List ℕ) :
    ∀ x ∈ List.zipWith (fun x y => (x + y) % 2 ^ 32) l1 l2, x < 2 ^ 32 := by
  induction l1 generalizing l2 with
  | nil => intro x hx; simp at hx
  | cons a l1 ih =>
    intro x hx
    cases l2 with
    | nil => simp at hx
    | cons b l2 =>
      rcases List.mem_cons.mp hx with rfl | hx
      · exact Nat.mod_lt _ (by norm_num)
      · exact ih l2 x hx

/-- One block compression of the source equals the fully-masked one on
32-bit inputs, and its output words are 32-bit. -/
lemma processBlock_m_eq (Ks H B : List ℕ) (hH : ∀ x ∈ H, x < 2 ^ 32)
    (hB : ∀ x ∈ B, x < 2 ^ 32) :
    processBlock Ks H B = processBlock_m Ks H B ∧
    ∀ x ∈ processBlock_m Ks H B, x < 2 ^ 32 := by
  have hfold := foldl_roundBody_m Ks (List.range 64) (B, loadVars H) hB (loadVars_lt H hH)
  constructor
  · simp only [processBlock, processBlock_m, hfold.1]
  · simp only [processBlock_m]
    exact zipWith_mod_lt _ _

/-- Folding the compression over the blocks: masked and unmasked agree. -/
lemma foldl_processBlock_m (Ks : List ℕ) (bs : List (List ℕ)) :
    ∀ H : List ℕ, (∀ x ∈ H, x < 2 ^ 32) → (∀ blk ∈ bs, ∀ x ∈ blk, x < 2 ^ 32) →
      bs.foldl (processBlock Ks) H = bs.foldl (processBlock_m Ks) H ∧
      ∀ x ∈ bs.foldl (processBlock_m Ks) H, x < 2 ^ 32 := by
  induction bs with
  | nil =>
    intro H hH _
    simp only [List.foldl_nil, true_and]
    exact hH
  | cons b bs ih =>
    intro H hH hbs
    have hstep := processBlock_m_eq Ks H b hH (hbs b (List.mem_cons_self b bs))
    have ih2 := ih (processBlock_m Ks H b) hstep.2
      fun blk hblk => hbs blk (List.mem_cons_of_mem b hblk)
    simp only [List.foldl_cons, hstep.1]
    exact ih2

/-- Every schedule word parsed by the preprocessor is 32-bit (bytes in). -/
lemma preprocess_words_lt (m : List ℕ) (hm : ∀ b ∈ m, b < 256) :
    ∀ blk ∈ preprocess_message m, ∀ wd ∈ blk, wd < 2 ^ 32 := by
  intro blk hblk
  simp only [preprocess_message, List.mem_map] at hblk
  obtain ⟨b, _, rfl⟩ := hblk
  intro wd hwd
  simp only [List.mem_map] at hwd
  obtain ⟨w, _, rfl⟩ := hwd
  apply fromBytesBE_lt
  · rw [List.length_take]
    exact min_le_left _ _
  · intro x hx
    apply padded_message_bytes_lt m hm
    exact List.drop_subset _ _ (List.take_subset _ _ hx)

/-- The derived initial values are 32-bit words. -/
lemma IV_lt : ∀ x ∈ IV, x < 2 ^ 32 := by
  rw [IV_eq]
  decide

/-- C10: replacing every bitwise primitive by its fully 32-bit-masked
variant (`rotate_right_m`, `choose_m`, `majority_m`, `Σ0_m`, `Σ1_m`,
`σ0_m`, `σ1_m`) leaves the digest unchanged: the unmasked high bits of
`rotate_right` and the unbounded `~x` of `choose` never reach the output. -/
theorem C10_masked_primitives_equivalent (m : List ℕ) (hm : ∀ b ∈ m, b < 256) :
    sha256 m = sha256_m m := by
  have h := foldl_processBlock_m K (preprocess_message m) IV IV_lt (preprocess_words_lt m hm)
  simp only [sha256, sha256_m, h.1]

/-- Witness for `C10_masked_primitives_equivalent` at the message `b"abc"`. -/
theorem C10_masked_primitives_equivalent_witness :
    (∀ b ∈ [97, 98, 99], b < 256) ∧ sha256 [97, 98, 99] = sha256_m [97, 98, 99] :=
  ⟨by decide, C10_masked_primitives_equivalent [97, 98, 99] (by decide)⟩

theorem lookup_cons_ne (e : ℕ × List ℕ) (d : List (ℕ × List ℕ)) (j : ℕ) (h : j ≠ e.1) :
    List.lookup j (e :: d) = List.lookup j d := by
  obtain ⟨a, b⟩ := e
  have hb : (j == a) = false := beq_eq_false_iff_ne.2 h
  simp [List.lookup_cons, hb]

theorem dictFind_insert (d : SieveDict) (k v j) :
    dictFind (dictInsert d k v) j = if j = k then some v else dictFind d j := by
  by_cases h : j = k
  · subst h
    simp [dictFind, dictInsert]
  · rw [if_neg h]
    exact lookup_cons_ne _ _ _ h

theorem dictFind_erase (d : SieveDict) (k j) :
    dictFind (dictErase d k) j = if j = k then none else dictFind d j := by
  induction d with
  | nil => simp [dictFind, dictErase]
  | cons e d ih =>
    simp only [dictFind, dictErase] at ih ⊢
    by_cases he : e.1 = k
    · have hb : decide (e.1 ≠ k) = false := by simp [he]
      simp only [List.filter_cons, hb, Bool.false_eq_true, if_false]
      rw [ih]
      by_cases hj : j = k
      · simp [hj]
      · rw [if_neg hj, if_neg hj, lookup_cons_ne e d j (by rw [he]; exact hj)]
    · have hb : decide (e.1 ≠ k) = true := by simp [he]
      simp only [List.filter_cons, hb, if_true]
      by_cases hj : j = e.1
      · subst hj
        obtain ⟨a, b⟩ := e
        simp only at he ⊢
        rw [if_neg he]
        simp [List.lookup_cons]
      · rw [lookup_cons_ne _ _ _ hj, lookup_cons_ne _ _ _ hj, ih]

theorem dictFind_setdefaultAppend (d : SieveDict) (k p j) :
    dictFind (setdefaultAppend d k p) j =
      if j = k then some ((dictFind d k).getD [] ++ [p]) else dictFind d j :=
  dictFind_insert d k _ j

theorem dictMem_setdefaultAppend (d : SieveDict) (k0 x0 k p) :
    dictMem (setdefaultAppend d k0 x0) k p ↔
      (k = k0 ∧ (p = x0 ∨ dictMem d k0 p)) ∨ (k ≠ k0 ∧ dictMem d k p) := by
  by_cases hk : k = k0
  · subst hk
    have hfind : dictFind (setdefaultAppend d k x0) k =
        some ((dictFind d k).getD [] ++ [x0]) := by
      rw [dictFind_setdefaultAppend, if_pos rfl]
    constructor
    · rintro ⟨l, hl, hp⟩
      rw [hfind] at hl
      injection hl with hl
      subst hl
      refine Or.inl ⟨rfl, ?_⟩
      rcases List.mem_append.1 hp with h | h
      · right
        cases hfd : dictFind d k with
        | none => rw [hfd] at h; simp at h
        | some l0 => exact ⟨l0, hfd, by rw [hfd] at h; simpa using h⟩
      · left
        simpa using h
    · rintro (⟨-, rfl | ⟨l0, hl0, hp⟩⟩ | ⟨hne, -⟩)
      · exact ⟨_, hfind, by simp⟩
      · exact ⟨_, hfind, by rw [hl0]; simp [hp]⟩
      · exact absurd rfl hne
  · have hfind : dictFind (setdefaultAppend d k0 x0) k = dictFind d k := by
      rw [dictFind_setdefaultAppend, if_neg hk]
    unfold dictMem
    rw [hfind]
    simp [hk]
theorem dictMem_foldSpread (q : ℕ) (l : List ℕ) : ∀ (d : SieveDict) (k p : ℕ),
    dictMem (l.foldl (fun d x => setdefaultAppend d (x + q) x) d) k p ↔
      dictMem d k p ∨ (p ∈ l ∧ k = p + q) := by
  induction l with
  | nil => intro d k p; simp
  | cons x l ih =>
    intro d k p
    rw [List.foldl_cons, ih, dictMem_setdefaultAppend]
    constructor
    · rintro ((⟨rfl, rfl | hm⟩ | ⟨hne, hm⟩) | ⟨hl, rfl⟩)
      · exact Or.inr ⟨List.mem_cons_self _ _, rfl⟩
      · exact Or.inl hm
      · exact Or.inl hm
      · exact Or.inr ⟨List.mem_cons_of_mem _ hl, rfl⟩
    · rintro (hm | ⟨hl, rfl⟩)
      · by_cases hk : k = x + q
        · exact Or.inl (Or.inl ⟨hk, Or.inr (hk ▸ hm)⟩)
        · exact Or.inl (Or.inr ⟨hk, hm⟩)
      · rcases List.mem_cons.1 hl with rfl | hl
        · exact Or.inl (Or.inl ⟨rfl, Or.inl rfl⟩)
        · exact Or.inr ⟨hl, rfl⟩

theorem dictMem_erase (d : SieveDict) (k0 k p) :
    dictMem (dictErase d k0) k p ↔ k ≠ k0 ∧ dictMem d k p := by
  unfold dictMem
  rw [dictFind_erase]
  by_cases hk : k = k0 <;> simp [hk]

theorem nextKey_spec (p q : ℕ) (hp : 0 < p) :
    p ∣ nextKey p q ∧ q ≤ nextKey p q ∧ p * p ≤ nextKey p q ∧
      nextKey p q < max q (p * p) + p := by
  have hdm := Nat.div_add_mod (q + p - 1) p
  have hr : (q + p - 1) % p < p := Nat.mod_lt _ hp
  have h1 : q ≤ p * ((q + p - 1) / p) := by omega
  have h2 : p * ((q + p - 1) / p) < q + p := by omega
  rcases le_total p ((q + p - 1) / p) with hcp | hcp
  · have hmax : max ((q + p - 1) / p) p = (q + p - 1) / p := max_eq_left hcp
    rw [nextKey, hmax]
    refine ⟨⟨_, rfl⟩, h1, Nat.mul_le_mul_left p hcp, ?_⟩
    have h4 := le_max_left q (p * p)
    omega
  · have hmax : max ((q + p - 1) / p) p = p := max_eq_right hcp
    rw [nextKey, hmax]
    have hqp : q ≤ p * p := le_trans h1 (Nat.mul_le_mul_left p hcp)
    refine ⟨⟨_, rfl⟩, hqp, le_refl _, ?_⟩
    have h4 := le_max_right q (p * p)
    omega

theorem nextKey_unique (p q m : ℕ) (hp : 0 < p) (hd : p ∣ m) (h1 : q ≤ m)
    (h2 : p * p ≤ m) (h3 : m < max q (p * p) + p) : m = nextKey p q := by
  obtain ⟨a, rfl⟩ := hd
  obtain ⟨hd', h1', h2', h3'⟩ := nextKey_spec p q hp
  obtain ⟨b, hb⟩ := hd'
  rw [hb] at h1' h2' h3' ⊢
  have hmax1 : max q (p * p) ≤ p * a := max_le h1 h2
  have hmax2 : max q (p * p) ≤ p * b := max_le h1' h2'
  have ha : p * a < p * (b + 1) := by rw [Nat.mul_succ]; omega
  have hbb : p * b < p * (a + 1) := by rw [Nat.mul_succ]; omega
  have hab : a < b + 1 := Nat.lt_of_mul_lt_mul_left ha
  have hba : b < a + 1 := Nat.lt_of_mul_lt_mul_left hbb
  have : a = b := by omega
  rw [this]

theorem nextKey_stable (p q : ℕ) (hp : 0 < p) (h : nextKey p q ≠ q) :
    nextKey p (q + 1) = nextKey p q := by
  obtain ⟨hd, h1, h2, h3⟩ := nextKey_spec p q hp
  refine (nextKey_unique p (q + 1) (nextKey p q) hp hd (by omega) h2 ?_).symm
  have h4 := max_choice q (p * p)
  have h5 := max_choice (q + 1) (p * p)
  have h6 := le_max_left (q + 1) (p * p)
  have h7 := le_max_right (q + 1) (p * p)
  omega

theorem nextKey_shift (p q : ℕ) (hp : 0 < p) (h : nextKey p q = q) :
    nextKey p (q + 1) = p + q := by
  obtain ⟨hd, h1, h2, h3⟩ := nextKey_spec p q hp
  rw [h] at hd h2
  refine (nextKey_unique p (q + 1) (p + q) hp (dvd_add (dvd_refl p) hd)
    (by omega) (by omega) ?_).symm
  have h6 := le_max_left (q + 1) (p * p)
  omega

theorem nextKey_self_sq (q : ℕ) (hq : 2 ≤ q) : nextKey q (q + 1) = q * q := by
  refine (nextKey_unique q (q + 1) (q * q) (by omega) ⟨q, rfl⟩ ?_ (le_refl _) ?_).symm
  · have := Nat.mul_le_mul_left q hq
    omega
  · have h6 := le_max_right (q + 1) (q * q)
    omega

theorem nextKey_lt_sq (p q : ℕ) (hp : 2 ≤ p) (hpq : p < q) :
    nextKey p q < q * q := by
  obtain ⟨-, -, -, h3⟩ := nextKey_spec p q (by omega)
  rcases max_choice q (p * p) with hm | hm <;> rw [hm] at h3
  · have h4 : q * 2 ≤ q * q := Nat.mul_le_mul_left q (by omega)
    omega
  · have h4 : p * (p + 1) ≤ (q - 1) * q := Nat.mul_le_mul (by omega) (by omega)
    have h5 : (q - 1) * q + q = q * q := by
      have hq1 : q - 1 + 1 = q := by omega
      calc (q - 1) * q + q = (q - 1 + 1) * q := by ring
        _ = q * q := by rw [hq1]
    have h6 : p * (p + 1) = p * p + p := by ring
    omega

theorem sieveInv_find_none_iff (d : SieveDict) (q : ℕ) (h : SieveInv d q) :
    dictFind d q = none ↔ q.Prime := by
  obtain ⟨hq2, hne, hmem⟩ := h
  constructor
  · intro hnone
    by_contra hnp
    have h0 : 0 < q := by omega
    have hpp : (Nat.minFac q).Prime := Nat.minFac_prime (by omega)
    have hpd : Nat.minFac q ∣ q := Nat.minFac_dvd q
    have hsq : Nat.minFac q * Nat.minFac q ≤ q := by
      have h' := Nat.minFac_sq_le_self h0 hnp
      rwa [pow_two] at h'
    have hple : Nat.minFac q ≤ q := Nat.le_of_dvd h0 hpd
    have hplt : Nat.minFac q < q := by
      rcases eq_or_lt_of_le hple with h' | h'
      · exfalso
        rw [h'] at hsq
        have := Nat.mul_le_mul_left q hq2
        omega
      · exact h'
    have hkq : q = nextKey (Nat.minFac q) q := by
      refine nextKey_unique _ q q hpp.pos hpd (le_refl q) hsq ?_
      have h6 := le_max_left q (Nat.minFac q * Nat.minFac q)
      have h7 := hpp.two_le
      omega
    have hm : dictMem d q (Nat.minFac q) := (hmem q (Nat.minFac q)).2 ⟨hpp, hplt, hkq⟩
    obtain ⟨l, hl, -⟩ := hm
    rw [hnone] at hl
    exact Option.noConfusion hl
  · intro hq
    cases hfd : dictFind d q with
    | none => rfl
    | some l =>
      exfalso
      have hlne : l ≠ [] := fun h' => hne q (h' ▸ hfd)
      obtain ⟨p, hpl⟩ := List.exists_mem_of_ne_nil l hlne
      obtain ⟨hpp, hplt, hk⟩ := (hmem q p).1 ⟨l, hfd, hpl⟩
      obtain ⟨hd, -, -, -⟩ := nextKey_spec p q hpp.pos
      rw [← hk] at hd
      rcases hq.eq_one_or_self_of_dvd p hd with h' | h'
      · exact hpp.ne_one h'
      · omega

theorem sieveInv_insert (d : SieveDict) (q : ℕ) (hinv : SieveInv d q)
    (hnone : dictFind d q = none) :
    SieveInv (dictInsert d (q * q) [q]) (q + 1) := by
  obtain ⟨hq2, hne, hmem⟩ := hinv
  have hq : q.Prime := (sieveInv_find_none_iff d q ⟨hq2, hne, hmem⟩).1 hnone
  have hstable : ∀ p : ℕ, p.Prime → p < q → nextKey p q ≠ q := by
    intro p hpp hplt hkq
    obtain ⟨l, hl, -⟩ := (hmem q p).2 ⟨hpp, hplt, hkq.symm⟩
    rw [hnone] at hl
    exact Option.noConfusion hl
  refine ⟨by omega, ?_, ?_⟩
  · intro k
    rw [dictFind_insert]
    by_cases hk : k = q * q
    · rw [if_pos hk]
      intro h'
      injection h' with h'
      exact List.noConfusion h'
    · rw [if_neg hk]
      exact hne k
  · intro k p
    unfold dictMem
    rw [dictFind_insert]
    by_cases hk : k = q * q
    · subst hk
      rw [if_pos rfl]
      constructor
      · rintro ⟨l, hl, hpl⟩
        injection hl with hl
        subst hl
        simp only [List.mem_singleton] at hpl
        subst hpl
        exact ⟨hq, by omega, (nextKey_self_sq p hq2).symm⟩
      · rintro ⟨hpp, hplt, hkk⟩
        rcases Nat.lt_or_ge p q with h' | h'
        · exfalso
          rw [nextKey_stable p q hpp.pos (hstable p hpp h')] at hkk
          have := nextKey_lt_sq p q hpp.two_le h'
          omega
        · have hpq : p = q := by omega
          exact ⟨[q], rfl, by simp [hpq]⟩
    · rw [if_neg hk]
      constructor
      · intro hm
        obtain ⟨hpp, hplt, hkk⟩ := (hmem k p).1 hm
        refine ⟨hpp, by omega, ?_⟩
        rw [nextKey_stable p q hpp.pos (hstable p hpp hplt)]
        exact hkk
      · rintro ⟨hpp, hplt, hkk⟩
        rcases Nat.lt_or_ge p q with h' | h'
        · rw [nextKey_stable p q hpp.pos (hstable p hpp h')] at hkk
          exact (hmem k p).2 ⟨hpp, h', hkk⟩
        · exfalso
          have hpq : p = q := by omega
          subst hpq
          rw [nextKey_self_sq p hq2] at hkk
          exact hk hkk

theorem foldSpread_ne_nil (q : ℕ) (l : List ℕ) :
    ∀ d : SieveDict, (∀ k, dictFind d k ≠ some []) →
      ∀ k, dictFind (l.foldl (fun d x => setdefaultAppend d (x + q) x) d) k ≠ some [] := by
  induction l with
  | nil => intro d hd k; simpa using hd k
  | cons x l ih =>
    intro d hd k
    rw [List.foldl_cons]
    refine ih _ ?_ k
    intro j
    rw [dictFind_setdefaultAppend]
    by_cases hj : j = x + q
    · rw [if_pos hj]
      intro h'
      injection h' with h'
      simp at h'
    · rw [if_neg hj]
      exact hd j

theorem sieveInv_spread (d : SieveDict) (q : ℕ) (l : List ℕ) (hinv : SieveInv d q)
    (hsome : dictFind d q = some l) :
    SieveInv (dictErase (l.foldl (fun d x => setdefaultAppend d (x + q) x) d) q)
      (q + 1) := by
  obtain ⟨hq2, hne, hmem⟩ := hinv
  have hql : ∀ x, x ∈ l ↔ (x.Prime ∧ x < q ∧ q = nextKey x q) := by
    intro x
    rw [← hmem q x]
    unfold dictMem
    rw [hsome]
    constructor
    · intro hx
      exact ⟨l, rfl, hx⟩
    · rintro ⟨l', hl', hx⟩
      injection hl' with hl'
      subst hl'
      exact hx
  have hnq : ¬ q.Prime := by
    intro hq
    rw [← sieveInv_find_none_iff d q ⟨hq2, hne, hmem⟩, hsome] at hq
    exact Option.noConfusion hq
  refine ⟨by omega, ?_, ?_⟩
  · intro k
    rw [dictFind_erase]
    by_cases hk : k = q
    · rw [if_pos hk]
      exact fun h' => Option.noConfusion h'
    · rw [if_neg hk]
      exact foldSpread_ne_nil q l d hne k
  · intro k p
    rw [dictMem_erase, dictMem_foldSpread]
    constructor
    · rintro ⟨hkq, hm | ⟨hpl, rfl⟩⟩
      · obtain ⟨hpp, hplt, hkk⟩ := (hmem k p).1 hm
        have hne' : nextKey p q ≠ q := fun h => hkq (hkk.trans h)
        refine ⟨hpp, by omega, ?_⟩
        rw [nextKey_stable p q hpp.pos hne']
        exact hkk
      · obtain ⟨hpp, hplt, hqk⟩ := (hql p).1 hpl
        refine ⟨hpp, by omega, ?_⟩
        rw [nextKey_shift p q hpp.pos hqk.symm]
    · rintro ⟨hpp, hplt, hkk⟩
      have hpq : p < q := by
        rcases Nat.lt_or_ge p q with h' | h'
        · exact h'
        · exfalso
          have h'' : p = q := by omega
          exact hnq (h'' ▸ hpp)
      by_cases hcase : nextKey p q = q
      · have hpl : p ∈ l := (hql p).2 ⟨hpp, hpq, hcase.symm⟩
        rw [nextKey_shift p q hpp.pos hcase] at hkk
        have h2p := hpp.two_le
        exact ⟨by omega, Or.inr ⟨hpl, hkk⟩⟩
      · rw [nextKey_stable p q hpp.pos hcase] at hkk
        exact ⟨fun h => hcase (hkk.symm.trans h), Or.inl ((hmem k p).2 ⟨hpp, hpq, hkk⟩)⟩

theorem sieveStep_none (d : SieveDict) (q : ℕ) (h : dictFind d q = none) :
    sieveStep (d, q) = (some q, (dictInsert d (q * q) [q], q + 1)) := by
  simp only [sieveStep, h]

theorem sieveStep_some (d : SieveDict) (q : ℕ) (l : List ℕ) (h : dictFind d q = some l) :
    sieveStep (d, q) =
      (none, (dictErase (l.foldl (fun d x => setdefaultAppend d (x + q) x) d) q,
        q + 1)) := by
  simp only [sieveStep, h]

theorem sieveRun_spec : ∀ (k : ℕ) (acc : List ℕ) (d : SieveDict) (q : ℕ),
    SieveInv d q →
      (sieveRun k (acc, (d, q))).1 =
          acc ++ (List.range' q k).filter (fun x => decide x.Prime) ∧
        SieveInv (sieveRun k (acc, (d, q))).2.1 (q + k) := by
  intro k
  induction k with
  | zero =>
    intro acc d q hinv
    exact ⟨by simp [sieveRun], by simpa [sieveRun] using hinv⟩
  | succ k ih =>
    intro acc d q hinv
    cases hfd : dictFind d q with
    | none =>
      have hq : q.Prime := (sieveInv_find_none_iff d q hinv).1 hfd
      have hinv' := sieveInv_insert d q hinv hfd
      have heq : sieveRun (k + 1) (acc, (d, q)) =
          sieveRun k (acc ++ [q], (dictInsert d (q * q) [q], q + 1)) := by
        simp only [sieveRun, sieveStep_none d q hfd, Option.toList_some]
      rw [heq]
      obtain ⟨h1, h2⟩ := ih (acc ++ [q]) _ _ hinv'
      constructor
      · rw [h1, List.range'_succ, List.filter_cons]
        have hdq : decide q.Prime = true := by simpa using hq
        rw [hdq, if_pos rfl]
        simp
      · have hqk : q + 1 + k = q + (k + 1) := by omega
        rwa [hqk] at h2
    | some l =>
      have hinv' := sieveInv_spread d q l hinv hfd
      have hnq : ¬ q.Prime := by
        intro hq
        rw [← sieveInv_find_none_iff d q hinv, hfd] at hq
        exact Option.noConfusion hq
      have heq : sieveRun (k + 1) (acc, (d, q)) =
          sieveRun k (acc,
            (dictErase (l.foldl (fun d x => setdefaultAppend d (x + q) x) d) q,
              q + 1)) := by
        simp only [sieveRun, sieveStep_some d q l hfd, Option.toList_none,
          List.append_nil]
      rw [heq]
      obtain ⟨h1, h2⟩ := ih acc _ _ hinv'
      constructor
      · rw [h1, List.range'_succ, List.filter_cons]
        have hdq : decide q.Prime = false := by simpa using hnq
        rw [hdq]
        simp
      · have hqk : q + 1 + k = q + (k + 1) := by omega
        rwa [hqk] at h2

theorem sieveInv_init : SieveInv [] 2 := by
  refine ⟨le_refl 2, ?_, ?_⟩
  · intro k
    simp [dictFind]
  · intro k p
    constructor
    · rintro ⟨l', hl', -⟩
      simp [dictFind] at hl'
    · rintro ⟨hpp, hplt, -⟩
      have := hpp.two_le
      omega

theorem sieveOutputs_eq (k : ℕ) :
    sieveOutputs k = (List.range' 2 k).filter (fun x => decide x.Prime) := by
  have h := (sieveRun_spec k [] [] 2 sieveInv_init).1
  rw [List.nil_append] at h
  exact h

theorem count_filter_length (p : ℕ → Prop) [DecidablePred p] (m : ℕ) :
    ((List.range m).filter (fun x => decide (p x))).length = Nat.count p m := by
  rw [Nat.count, List.countP_eq_length_filter]

theorem filter_range_getElem (p : ℕ → Prop) [DecidablePred p] :
    ∀ (m i : ℕ), i < Nat.count p m →
      (((List.range m).filter (fun x => decide (p x)))[i]? : Option ℕ) =
        some (Nat.nth p i) := by
  intro m
  induction m with
  | zero =>
    intro i hi
    simp [Nat.count_zero] at hi
  | succ m ih =>
    intro i hi
    rw [Nat.count_succ] at hi
    rw [List.range_succ, List.filter_append]
    have hlen := count_filter_length p m
    by_cases him : i < Nat.count p m
    · rw [List.getElem?_append_left (by rw [hlen]; exact him)]
      exact ih i him
    · have hpm : p m := by
        by_cases h : p m
        · exact h
        · exfalso
          rw [if_neg h] at hi
          omega
      rw [if_pos hpm] at hi
      have hieq : i = Nat.count p m := by omega
      have hfm : List.filter (fun x => decide (p x)) [m] = [m] := by
        simp [hpm]
      rw [hfm, List.getElem?_append_right (by rw [hlen]; omega), hlen, hieq,
        Nat.sub_self]
      simp only [List.getElem?_cons_zero]
      rw [Nat.nth_count hpm]

theorem range_two_add (k : ℕ) :
    List.range (k + 2) = [0, 1] ++ List.range' 2 k := by
  rw [List.range_eq_range']
  have h := List.range'_append 0 2 k 1
  simp only [Nat.mul_comm] at h
  rw [← h]
  rfl

theorem sieveOutputs_eq_range (k : ℕ) :
    sieveOutputs k = (List.range (k + 2)).filter (fun x => decide x.Prime) := by
  rw [sieveOutputs_eq, range_two_add, List.filter_append]
  have h01 : List.filter (fun x => decide x.Prime) [0, 1] = [] := by
    have d0 : decide (Nat.Prime 0) = false := decide_eq_false Nat.not_prime_zero
    have d1 : decide (Nat.Prime 1) = false := decide_eq_false Nat.not_prime_one
    simp only [List.filter_cons, d0, d1, Bool.false_eq_true, if_false,
      List.filter_nil]
  rw [h01, List.nil_append]

/-- C9: the prime generator `primes` is correct: after considering the
candidates `2 .. k + 1` it has yielded exactly the primes below `k + 2` in
increasing order, and its `n`-th yield (once produced) is the `n`-th prime. -/
theorem C9_primes_generator :
    (∀ k, sieveOutputs k = (List.range (k + 2)).filter (fun x => decide x.Prime)) ∧
      (∀ k, (sieveOutputs k).Sorted (· < ·)) ∧
        ∀ n, ((sieveOutputs (Nat.nth Nat.Prime n))[n]? : Option ℕ) =
          some (Nat.nth Nat.Prime n) := by
  refine ⟨sieveOutputs_eq_range, ?_, ?_⟩
  · intro k
    rw [sieveOutputs_eq_range]
    exact List.Pairwise.filter _ (List.pairwise_lt_range _)
  · intro n
    rw [sieveOutputs_eq_range]
    have hinf : {x | Nat.Prime x}.Infinite := Nat.infinite_setOf_prime
    have h1 : Nat.count Nat.Prime (Nat.nth Nat.Prime n + 1) = n + 1 :=
      Nat.count_nth_succ_of_infinite hinf n
    have h2 : n < Nat.count Nat.Prime (Nat.nth Nat.Prime n + 2) := by
      have h3 := Nat.count_monotone Nat.Prime
        (show Nat.nth Nat.Prime n + 1 ≤ Nat.nth Nat.Prime n + 2 by omega)
      omega
    exact filter_range_getElem Nat.Prime _ n h2
